import Mathlib

/-!
Verification development for the multifs virtual-filesystem multiplexer
(package multifs, file multifs.go).

The Go code is shallowly embedded: the mount table is an association list
standing for the Go map (iteration order of a Go map is unspecified, so
only key-set facts are relied upon), stateful directory cursors become
explicit state-passing functions, and fallible operations return
Except/Option values.  Strings are Lean strings; the path helpers from
the Go standard library (path.Clean, strings.TrimPrefix, strings.SplitN,
strings.Trim, strings.Contains) are embedded as character-list functions
below, following their documented semantics.
-/

set_option autoImplicit false

namespace Multifs

/-- Errors produced by the multiplexer or its collaborators:
fs.ErrNotExist, the two errors.New values raised by Mount, io.EOF,
the "not a directory" error of ReadDir, and opaque backend-native
errors represented by a numeric code. -/
inductive Err where
  | notExist
  | invalidId
  | nilFS
  | eof
  | notDir
  | other (code : Nat)
  deriving DecidableEq, Repr

/-- A directory entry as it crosses the fs.DirEntry interface: only the
name and the directory flag are relevant to the claims (the synthetic
entries of the global root always report isDir = true). -/
structure DirEntry where
  name : String
  isDir : Bool
  deriving DecidableEq, Repr

instance {ε α : Type _} [DecidableEq ε] [DecidableEq α] : DecidableEq (Except ε α) :=
  fun x y =>
    match x, y with
    | .error a, .error b =>
      if h : a = b then isTrue (by rw [h])
      else isFalse (by intro he; cases he; exact h rfl)
    | .ok a, .ok b =>
      if h : a = b then isTrue (by rw [h])
      else isFalse (by intro he; cases he; exact h rfl)
    | .error _, .ok _ => isFalse (by intro h; cases h)
    | .ok _, .error _ => isFalse (by intro h; cases h)

/-- An fs.File value as returned by MultiFS.Open: the synthetic global
root directory (rootDir in the source), the synthetic mount-root
directory (snapshotRootDir), or an arbitrary file produced by a backend.
A snapshotRootDir stores the backend it will list lazily; since its
ReadDir only ever calls fs.ReadDir(d.fs, "."), the stored backend is
represented here by that root listing.  A backend file carries an
opaque tag plus the result its own ReadDir(-1) would give if it supports
the fs.ReadDirFile interface (none when it does not). -/
inductive FsFile where
  | rootDir (names : List String) (pos : Nat)
  | snapRoot (listing : Except Err (List DirEntry)) (pos : Nat)
      (buf : Option (List DirEntry))
  | backendFile (tag : Nat) (readDirAll : Option (Except Err (List DirEntry)))
  deriving DecidableEq, Repr

/-- A mounted backend (an fs.FS value): its Open method and the answer
it gives to fs.ReadDir(f, "."), the only two capabilities the core
consumes. -/
structure Backend where
  openf : String → Except Err FsFile
  readDirDot : Except Err (List DirEntry)

/-- The MultiFS state: the roots map from identifier to backend,
embedded as an association list (the mutex only guards this map and
concurrency is out of scope for a sequential embedding). -/
structure MultiFS where
  roots : List (String × Backend)

/-! ### Character-level string helpers (strings package) -/

/-- The two-character segment "..". -/
def ddSeg : List Char := ['.', '.']

/-- strings.Trim(id, "/"): remove all leading and trailing '/'
characters. -/
def trimSlashes (s : String) : String :=
  ⟨((s.data.dropWhile (fun c => c = '/')).reverse.dropWhile
      (fun c => c = '/')).reverse⟩

/-! ### path.Clean

path.Clean is embedded at the level of '/'-separated segments, following
its documented semantics: repeated separators collapse (empty segments
vanish), "." segments vanish, ".." eliminates the preceding non-".."
segment, and a ".." at the root of a rooted path vanishes. -/

/-- Push a character onto the first segment of a segment list. -/
def consHead (c : Char) : List (List Char) → List (List Char)
  | [] => [[c]]
  | s :: ss => (c :: s) :: ss

/-- Split a character list into its '/'-separated segments (the
single-separator case of strings.Split). -/
def splitSegs : List Char → List (List Char)
  | [] => [[]]
  | c :: cs => if c = '/' then [] :: splitSegs cs else consHead c (splitSegs cs)

/-- One step of path.Clean's segment processing over an output stack
(head = most recently emitted segment): skip empty and "." segments,
let ".." cancel the preceding real segment, keep unmatched ".."s of a
relative path, drop ".."s that would climb above the root of a rooted
path. -/
def cleanStep (rooted : Bool) (stack : List (List Char)) (seg : List Char) :
    List (List Char) :=
  if seg = [] ∨ seg = ['.'] then stack
  else if seg = ddSeg then
    match stack with
    | [] => if rooted then [] else [ddSeg]
    | t :: rest => if t = ddSeg then ddSeg :: t :: rest else rest
  else seg :: stack

/-- Join segments back with '/' separators. -/
def joinSegs : List (List Char) → List Char
  | [] => []
  | [s] => s
  | s :: ss => s ++ '/' :: joinSegs ss

/-- path.Clean on a character list. -/
def cleanChars (cs : List Char) : List Char :=
  match cs with
  | [] => ['.']
  | c :: _ =>
    let rooted : Bool := decide (c = '/')
    let body := joinSegs ((splitSegs cs).foldl (cleanStep rooted) []).reverse
    if rooted then '/' :: body
    else if body = [] then ['.'] else body

/-- path.Clean. -/
def pathClean (s : String) : String := ⟨cleanChars s.data⟩

/-- strings.TrimPrefix(name, "/") (after Clean a rooted path has exactly
one leading separator). -/
def trimLeadSlash (cs : List Char) : List Char :=
  if cs.take 1 = ['/'] then cs.drop 1 else cs

/-- strings.TrimPrefix(name, "./"). -/
def trimDotSlash (cs : List Char) : List Char :=
  if cs.take 2 = ['.', '/'] then cs.drop 2 else cs

/-- strings.SplitN(name, "/", 2): the part before the first separator,
and the remainder after it when a separator occurs. -/
def splitN2 : List Char → List Char × Option (List Char)
  | [] => ([], none)
  | c :: cs =>
    if c = '/' then ([], some cs)
    else
      let p := splitN2 cs
      (c :: p.1, p.2)

/-- Prepend characters onto the first segment of a segment list (the
effect of splitting s ++ cs when s is separator-free). -/
def prependSeg (s : List Char) : List (List Char) → List (List Char)
  | [] => [s]
  | t :: ts => (s ++ t) :: ts

/-- A normal path segment: non-empty, not ".", not "..", and free of
separators — exactly the segments that survive on path.Clean's output
stack above any leading ".."s. -/
def SegOK (s : List Char) : Prop :=
  s ≠ [] ∧ s ≠ ['.'] ∧ s ≠ ddSeg ∧ '/' ∉ s

/-! ### The mount table and the resolver -/

/-- getRoot: read the roots map under the read lock. -/
def MultiFS.getRoot (m : MultiFS) (id : String) : Option Backend :=
  m.roots.lookup id

/-- idsSnapshot: the keys of the roots map (order unspecified, as for a
Go map). -/
def MultiFS.idsSnapshot (m : MultiFS) : List String :=
  m.roots.map Prod.fst

/-- Mount: trim separators off the identifier, reject an empty or
separator-containing identifier, reject a nil backend, otherwise insert
or replace the binding.  The returned pair is (error, new state); a Go
map assignment is embedded as prepending the binding after erasing any
previous one. -/
def MultiFS.Mount (m : MultiFS) (id : String) (f : Option Backend) :
    Option Err × MultiFS :=
  let id := trimSlashes id
  if id = "" ∨ '/' ∈ id.data then (some .invalidId, m)
  else
    match f with
    | none => (some .nilFS, m)
    | some f => (none, ⟨(id, f) :: m.roots.filter (fun p => p.1 != id)⟩)

/-- Unmount: fail with fs.ErrNotExist when the identifier is not
mounted, otherwise delete the binding. -/
def MultiFS.Unmount (m : MultiFS) (id : String) : Option Err × MultiFS :=
  match m.roots.lookup id with
  | none => (some .notExist, m)
  | some _ => (none, ⟨m.roots.filter (fun p => p.1 != id)⟩)

/-- The body of split after Clean and the two TrimPrefix steps: the
root check, the escape check, the SplitN on the first separator and the
mount-table lookup. -/
def splitCore (m : MultiFS) (cs : List Char) : Except Err (String × String) :=
  if cs = [] ∨ cs = ['.'] then .ok ("", ".")
  else if cs = ddSeg ∨ cs.take 3 = ['.', '.', '/'] then .error .notExist
  else
    let p := splitN2 cs
    if (m.getRoot ⟨p.1⟩).isSome then
      .ok (⟨p.1⟩, match p.2 with | none => "." | some r => ⟨r⟩)
    else .error .notExist

/-- split on a character list: Clean, tolerate a leading separator,
tolerate a "./" prefix, then classify. -/
def resolveChars (m : MultiFS) (cs : List Char) : Except Err (String × String) :=
  splitCore m (trimDotSlash (trimLeadSlash (cleanChars cs)))

/-- MultiFS.split: turn a caller path into (id, subpath), ("", ".") for
the global root, or fs.ErrNotExist. -/
def MultiFS.split (m : MultiFS) (name : String) : Except Err (String × String) :=
  resolveChars m name.data

/-- newRootDir. -/
def newRootDir (names : List String) : FsFile := .rootDir names 0

/-- newSnapshotRootDir. -/
def newSnapshotRootDir (b : Backend) : FsFile := .snapRoot b.readDirDot 0 none

/-- MultiFS.Open: resolve, serve the synthetic global root for the root
marker, the synthetic mount root for subpath ".", and otherwise delegate
to the backend's own Open. -/
def MultiFS.Open (m : MultiFS) (name : String) : Except Err FsFile :=
  match m.split name with
  | .error e => .error e
  | .ok (id, subpath) =>
    if id = "" then .ok (newRootDir m.idsSnapshot)
    else
      match m.getRoot id with
      | none => .error .notExist
      | some subfs =>
        if subpath = "." then .ok (newSnapshotRootDir subfs)
        else subfs.openf subpath

/-! ### Directory cursors -/

/-- rootDir.ReadDir: the cursor over the global root's identifier list.
Returns the entries produced plus the advanced position.  The Go int n
is an Int, and the loop "for ; n > 0 && d.pos < len(d.names); n--" is
rendered by the count min n'.toNat (length - pos). -/
def rootDirReadDir (names : List String) (pos : Nat) (n : Int) :
    Except Err (List DirEntry) × Nat :=
  if names.length ≤ pos ∧ 0 < n then (.error .eof, pos)
  else
    let n' : Int :=
      if n ≤ 0 ∨ (names.length : Int) - (pos : Int) < n then
        (names.length : Int) - (pos : Int)
      else n
    let k : Nat := min n'.toNat (names.length - pos)
    (.ok (((names.drop pos).take k).map (fun s => ⟨s, true⟩)), pos + k)

/-- snapshotRootDir.ReadDir once the buffer is loaded: the slice
d.buf[d.pos : d.pos+n]. -/
def snapCore (buf : List DirEntry) (pos : Nat) (n : Int) :
    Except Err (List DirEntry) × (Nat × Option (List DirEntry)) :=
  if buf.length ≤ pos ∧ 0 < n then (.error .eof, (pos, some buf))
  else
    let n' : Int :=
      if n ≤ 0 ∨ (buf.length : Int) - (pos : Int) < n then
        (buf.length : Int) - (pos : Int)
      else n
    let k : Nat := min n'.toNat (buf.length - pos)
    (.ok ((buf.drop pos).take k), (pos + k, some buf))

/-- snapshotRootDir.ReadDir: load the backend's root listing once (an
error while loading is returned and the buffer stays empty), then read
from the buffer. -/
def snapReadDir (listing : Except Err (List DirEntry)) (pos : Nat)
    (buf : Option (List DirEntry)) (n : Int) :
    Except Err (List DirEntry) × (Nat × Option (List DirEntry)) :=
  match buf with
  | some b => snapCore b pos n
  | none =>
    match listing with
    | .error e => (.error e, (pos, none))
    | .ok es => snapCore es pos n

/-- The dir.ReadDir(-1) call of MultiFS.ReadDir, dispatched on whether
the opened file supports fs.ReadDirFile (both synthetic directories do;
a backend file does iff it carries a listing). -/
def readDirFileAll (f : FsFile) : Except Err (List DirEntry) :=
  match f with
  | .rootDir names pos => (rootDirReadDir names pos (-1)).1
  | .snapRoot listing pos buf => (snapReadDir listing pos buf (-1)).1
  | .backendFile _ rda =>
    match rda with
    | none => .error .notDir
    | some r => r

/-- MultiFS.ReadDir: open, require a directory, read everything. -/
def MultiFS.ReadDir (m : MultiFS) (name : String) : Except Err (List DirEntry) :=
  match m.Open name with
  | .error e => .error e
  | .ok f => readDirFileAll f

/-! ### Statement-level predicates -/

/-- The cleaned path retains a leading separator (is absolute). -/
def absolute (s : String) : Prop := s.data.take 1 = ['/']

/-- The path begins with the three characters "../" (the
strings.HasPrefix(name, "../") test of split). -/
def beginsDotDot (s : String) : Prop := s.data.take 3 = ['.', '.', '/']

/-- Drop the first character of a string (the stripped leading
separator). -/
def strDropOne (s : String) : String := ⟨s.data.drop 1⟩

instance (s : String) : Decidable (absolute s) := by
  unfold absolute
  infer_instance

instance (s : String) : Decidable (beginsDotDot s) := by
  unfold beginsDotDot
  infer_instance

/-- A concrete backend whose Open always succeeds with an opaque file
and whose root listing is empty; used for concrete instantiations. -/
def b0 : Backend where
  openf := fun _ => .ok (.backendFile 0 none)
  readDirDot := .ok []

/-- A concrete backend distinguishable from b0's results. -/
def b7 : Backend where
  openf := fun _ => .ok (.backendFile 7 none)
  readDirDot := .ok [⟨"f.txt", false⟩]

/-- The empty multiplexer. -/
def mEmpty : MultiFS := ⟨[]⟩

/-- A multiplexer with "one" mounted. -/
def mOne : MultiFS := ⟨[("one", b0)]⟩

/-- A multiplexer with the pathological identifier ".." mounted (which
Mount accepts: trimming separators leaves "..", which is non-empty and
separator-free). -/
def mDots : MultiFS := ⟨[("..", b7)]⟩

/-- A multiplexer with "one" and "two" mounted. -/
def mTwo : MultiFS := ⟨[("one", b0), ("two", b0)]⟩

/-! ## List and string helper lemmas -/

lemma lookup_filter_ne (x : String) (l : List (String × Backend)) :
    (l.filter (fun p => p.1 != x)).lookup x = none := by
  induction l with
  | nil => rfl
  | cons p t ih =>
    obtain ⟨k, v⟩ := p
    by_cases h : k = x
    · simp [List.filter_cons, h, ih]
    · simp only [List.filter_cons]
      rw [if_pos (by simp [h])]
      have h1 : (x == k) = false := beq_eq_false_iff_ne.mpr (fun e => h e.symm)
      rw [List.lookup, h1]
      exact ih

lemma lookup_eq_none_of_forall_ne (q : String) (l : List (String × Backend))
    (h : ∀ p ∈ l, p.1 ≠ q) : l.lookup q = none := by
  induction l with
  | nil => rfl
  | cons p t ih =>
    obtain ⟨k, v⟩ := p
    have h1 : (q == k) = false :=
      beq_eq_false_iff_ne.mpr (fun e => h (k, v) (by simp) e.symm)
    rw [List.lookup, h1]
    exact ih (fun r hr => h r (by simp [hr]))

lemma dropWhile_slash_id (l : List Char) (h : ∀ c ∈ l, c ≠ '/') :
    l.dropWhile (fun c => c = '/') = l := by
  cases l with
  | nil => rfl
  | cons c t =>
    rw [List.dropWhile_cons]
    simp [h c (by simp)]

lemma trimSlashes_slashFree (x : String) (h : '/' ∉ x.data) :
    trimSlashes x = x := by
  obtain ⟨d⟩ := x
  have hall : ∀ c ∈ d, c ≠ '/' := by
    intro c hc he
    exact h (he ▸ hc)
  show (⟨_⟩ : String) = ⟨d⟩
  rw [dropWhile_slash_id d hall,
    dropWhile_slash_id d.reverse (by
      intro c hc
      exact hall c (List.mem_reverse.mp hc)),
    List.reverse_reverse]

lemma wrap_data (x : String) : ("/" ++ x ++ "/").data = '/' :: (x.data ++ ['/']) := by
  obtain ⟨d⟩ := x
  rfl

lemma trimSlashes_wrap (x : String) (hne : x ≠ "") (h : '/' ∉ x.data) :
    trimSlashes ("/" ++ x ++ "/") = x := by
  have hall : ∀ c ∈ x.data, c ≠ '/' := by
    intro c hc he
    exact h (he ▸ hc)
  obtain ⟨d⟩ := x
  have hd : d ≠ [] := by
    intro e
    exact hne (by rw [e])
  show (⟨_⟩ : String) = ⟨d⟩
  rw [wrap_data]
  cases d with
  | nil => exact absurd rfl hd
  | cons c t =>
    have hct : ∀ a ∈ c :: t, a ≠ '/' := hall
    rw [show List.dropWhile (fun c => c = '/') ('/' :: ((c :: t) ++ ['/']))
        = List.dropWhile (fun c => c = '/') ((c :: t) ++ ['/']) by
      rw [List.dropWhile_cons]; simp]
    rw [show ((c :: t) ++ ['/'] : List Char).dropWhile (fun c => c = '/')
        = (c :: t) ++ ['/'] by
      rw [List.cons_append, List.dropWhile_cons]
      simp [hct c (by simp)]]
    rw [show ((c :: t) ++ ['/'] : List Char).reverse = '/' :: (c :: t).reverse by
      simp]
    rw [show List.dropWhile (fun c => c = '/') ('/' :: (c :: t).reverse)
        = List.dropWhile (fun c => c = '/') ((c :: t).reverse) by
      rw [List.dropWhile_cons]; simp]
    rw [dropWhile_slash_id _ (by
      intro a ha
      exact hct a (List.mem_reverse.mp ha))]
    rw [List.reverse_reverse]

/-! ## path.Clean lemmas -/

lemma splitSegs_ne_nil (cs : List Char) : splitSegs cs ≠ [] := by
  induction cs with
  | nil => simp [splitSegs]
  | cons c cs ih =>
    simp only [splitSegs]
    by_cases h : c = '/'
    · simp [h]
    · rw [if_neg h]
      cases hs : splitSegs cs with
      | nil => exact absurd hs ih
      | cons a t => simp [consHead]

lemma splitSegs_slashFree (cs : List Char) : ∀ s ∈ splitSegs cs, '/' ∉ s := by
  induction cs with
  | nil =>
    intro s hs
    simp [splitSegs] at hs
    simp [hs]
  | cons c cs ih =>
    intro s hs
    simp only [splitSegs] at hs
    by_cases h : c = '/'
    · rw [if_pos h] at hs
      rcases List.mem_cons.mp hs with h1 | h1
      · simp [h1]
      · exact ih s h1
    · rw [if_neg h] at hs
      cases hsp : splitSegs cs with
      | nil => exact absurd hsp (splitSegs_ne_nil cs)
      | cons a t =>
        rw [hsp] at hs
        simp only [consHead] at hs
        rcases List.mem_cons.mp hs with h1 | h1
        · subst h1
          intro hm
          rcases List.mem_cons.mp hm with h2 | h2
          · exact h h2.symm
          · exact ih a (by rw [hsp]; simp) h2
        · exact ih s (by rw [hsp]; simp [h1])

lemma splitSegs_append (s : List Char) (cs : List Char) (h : '/' ∉ s) :
    splitSegs (s ++ cs) = prependSeg s (splitSegs cs) := by
  induction s with
  | nil =>
    simp only [List.nil_append]
    cases hs : splitSegs cs with
    | nil => exact absurd hs (splitSegs_ne_nil cs)
    | cons a t => simp [prependSeg]
  | cons c s ih =>
    have hc : c ≠ '/' := fun e => h (by simp [e])
    simp only [List.cons_append, splitSegs, List.append_eq]
    rw [if_neg hc, ih (fun hm => h (by simp [hm]))]
    cases hs : splitSegs cs with
    | nil => exact absurd hs (splitSegs_ne_nil cs)
    | cons a t => simp [prependSeg, consHead]

lemma joinSegs_cons_cons (c : Char) (t : List Char) (r : List (List Char)) :
    joinSegs ((c :: t) :: r) = c :: joinSegs (t :: r) := by
  cases r with
  | nil => rfl
  | cons a rs => rfl

lemma joinSegs_ne_nil (s : List Char) (r : List (List Char)) (h : s ≠ []) :
    joinSegs (s :: r) ≠ [] := by
  cases s with
  | nil => exact absurd rfl h
  | cons c t =>
    rw [joinSegs_cons_cons]
    simp

lemma splitSegs_join (L : List (List Char)) (hne : L ≠ [])
    (hsf : ∀ s ∈ L, '/' ∉ s) : splitSegs (joinSegs L) = L := by
  induction L with
  | nil => exact absurd rfl hne
  | cons s ss ih =>
    cases ss with
    | nil =>
      show splitSegs (joinSegs [s]) = [s]
      rw [show joinSegs [s] = s ++ [] by simp [joinSegs],
        splitSegs_append s [] (hsf s (by simp))]
      simp [splitSegs, prependSeg]
    | cons a t =>
      show splitSegs (s ++ '/' :: joinSegs (a :: t)) = s :: a :: t
      rw [splitSegs_append s _ (hsf s (by simp))]
      have h2 : splitSegs ('/' :: joinSegs (a :: t))
          = [] :: splitSegs (joinSegs (a :: t)) := by
        simp [splitSegs]
      rw [h2, ih (by simp) (fun r hr => hsf r (by simp [hr]))]
      simp [prependSeg]

lemma cleanStep_skip (rooted : Bool) (stack : List (List Char))
    (seg : List Char) (h : seg = [] ∨ seg = ['.']) :
    cleanStep rooted stack seg = stack := by
  unfold cleanStep
  rw [if_pos h]

lemma cleanStep_push (rooted : Bool) (stack : List (List Char))
    (seg : List Char) (h1 : seg ≠ []) (h2 : seg ≠ ['.']) (h3 : seg ≠ ddSeg) :
    cleanStep rooted stack seg = seg :: stack := by
  unfold cleanStep
  rw [if_neg (by push_neg; exact ⟨h1, h2⟩), if_neg h3]

lemma cleanStep_dd_pop (rooted : Bool) (t : List Char) (ts : List (List Char))
    (ht : t ≠ ddSeg) : cleanStep rooted (t :: ts) ddSeg = ts := by
  unfold cleanStep
  rw [if_neg (by decide), if_pos rfl]
  show (if t = ddSeg then ddSeg :: t :: ts else ts) = ts
  rw [if_neg ht]

/-- The coupled invariant of path.Clean's fold: starting from a stack of
normal segments (plus, for the relative fold, a block of ".."s below
them), the relative fold yields normal segments above a block of ".."s,
and the rooted fold yields exactly those normal segments. -/
lemma fold_pair (segs : List (List Char)) :
    ∀ N k, (∀ s ∈ N, SegOK s) → (∀ s ∈ segs, '/' ∉ s) →
    ∃ N' k', (∀ s ∈ N', SegOK s) ∧
      List.foldl (cleanStep false) (N ++ List.replicate k ddSeg) segs
        = N' ++ List.replicate k' ddSeg ∧
      List.foldl (cleanStep true) N segs = N' := by
  induction segs with
  | nil =>
    intro N k hN _
    exact ⟨N, k, hN, rfl, rfl⟩
  | cons s rest ih =>
    intro N k hN hsf
    simp only [List.foldl_cons]
    by_cases hs0 : s = [] ∨ s = ['.']
    · rw [cleanStep_skip _ _ _ hs0, cleanStep_skip _ _ _ hs0]
      exact ih N k hN (fun r hr => hsf r (by simp [hr]))
    · push_neg at hs0
      by_cases hdd : s = ddSeg
      · subst hdd
        cases N with
        | nil =>
          cases k with
          | zero =>
            have e1 : cleanStep false (([] : List (List Char))
                ++ List.replicate 0 ddSeg) ddSeg
                = [] ++ List.replicate 1 ddSeg := by decide
            have e2 : cleanStep true [] ddSeg = [] := by decide
            rw [e1, e2]
            exact ih [] 1 (by simp) (fun r hr => hsf r (by simp [hr]))
          | succ k2 =>
            have e1 : cleanStep false (([] : List (List Char))
                ++ List.replicate (k2 + 1) ddSeg) ddSeg
                = [] ++ List.replicate (k2 + 2) ddSeg := by
              simp only [List.nil_append, List.replicate_succ]
              unfold cleanStep
              rw [if_neg (by decide), if_pos rfl]
              show (if ddSeg = ddSeg then ddSeg :: ddSeg :: List.replicate k2 ddSeg
                  else List.replicate k2 ddSeg)
                  = ddSeg :: ddSeg :: List.replicate k2 ddSeg
              rw [if_pos rfl]
            have e2 : cleanStep true [] ddSeg = [] := by decide
            rw [e1, e2]
            exact ih [] (k2 + 2) (by simp) (fun r hr => hsf r (by simp [hr]))
        | cons t ts =>
          have hts : SegOK t := hN t (by simp)
          have e1 : cleanStep false ((t :: ts) ++ List.replicate k ddSeg) ddSeg
              = ts ++ List.replicate k ddSeg := by
            rw [List.cons_append]
            exact cleanStep_dd_pop false t _ hts.2.2.1
          have e2 : cleanStep true (t :: ts) ddSeg = ts :=
            cleanStep_dd_pop true t ts hts.2.2.1
          rw [e1, e2]
          exact ih ts k (fun r hr => hN r (by simp [hr]))
            (fun r hr => hsf r (by simp [hr]))
      · have hOK : SegOK s := ⟨hs0.1, hs0.2, hdd, hsf s (by simp)⟩
        have e1 : cleanStep false (N ++ List.replicate k ddSeg) s
            = (s :: N) ++ List.replicate k ddSeg := by
          rw [cleanStep_push _ _ _ hs0.1 hs0.2 hdd]
          rfl
        have e2 : cleanStep true N s = s :: N :=
          cleanStep_push _ _ _ hs0.1 hs0.2 hdd
        rw [e1, e2]
        refine ih (s :: N) k ?_ (fun r hr => hsf r (by simp [hr]))
        intro r hr
        rcases List.mem_cons.mp hr with h | h
        · subst h
          exact hOK
        · exact hN r h

lemma cleanChars_cons_slash (cs : List Char) :
    cleanChars ('/' :: cs)
      = '/' :: joinSegs ((splitSegs ('/' :: cs)).foldl (cleanStep true) []).reverse := by
  simp [cleanChars]

lemma cleanChars_cons_notslash (c : Char) (cs : List Char) (hc : c ≠ '/') :
    cleanChars (c :: cs)
      = (if joinSegs ((splitSegs (c :: cs)).foldl (cleanStep false) []).reverse = []
         then ['.']
         else joinSegs ((splitSegs (c :: cs)).foldl (cleanStep false) []).reverse) := by
  simp only [cleanChars]
  rw [show decide (c = '/') = false by simp [hc]]
  simp

/-- Pushing only normal segments: the relative fold just stacks them. -/
lemma fold_push (L : List (List Char)) :
    ∀ acc, (∀ s ∈ L, SegOK s) →
      List.foldl (cleanStep false) acc L = L.reverse ++ acc := by
  induction L with
  | nil => simp
  | cons s r ih =>
    intro acc hOK
    have h := hOK s (by simp)
    simp only [List.foldl_cons]
    rw [cleanStep_push _ _ _ h.1 h.2.1 h.2.2.1,
      ih (s :: acc) (fun x hx => hOK x (by simp [hx]))]
    simp

/-- Structure of path.Clean's output: for a rooted input it is '/'
followed by the join of normal segments; for a relative input it is the
join of a (possibly empty) block of ".."s followed by normal segments,
or "." when nothing remains. -/
lemma cleanChars_shape (c : Char) (cs2 : List Char) :
    ∃ (N : List (List Char)) (k : Nat), (∀ s ∈ N, SegOK s) ∧
      (c = '/' → cleanChars (c :: cs2) = '/' :: joinSegs N.reverse) ∧
      (c ≠ '/' →
        cleanChars (c :: cs2)
          = (if joinSegs (List.replicate k ddSeg ++ N.reverse) = [] then ['.']
             else joinSegs (List.replicate k ddSeg ++ N.reverse))) := by
  obtain ⟨N, k, hN, hfalse, htrue⟩ :=
    fold_pair (splitSegs (c :: cs2)) [] 0 (by simp) (splitSegs_slashFree _)
  simp only [List.append_nil, List.replicate_zero] at hfalse
  refine ⟨N, k, hN, ?_, ?_⟩
  · intro hc
    subst hc
    rw [cleanChars_cons_slash, htrue]
  · intro hc
    rw [cleanChars_cons_notslash c cs2 hc, hfalse]
    rw [List.reverse_append, List.reverse_replicate]

lemma joinSegs_take1_ne_slash (L : List (List Char)) (hne : L ≠ [])
    (hOK : ∀ s ∈ L, SegOK s) : (joinSegs L).take 1 ≠ ['/'] := by
  cases L with
  | nil => exact absurd rfl hne
  | cons s r =>
    have h := hOK s (by simp)
    cases s with
    | nil => exact absurd rfl h.1
    | cons c t =>
      rw [joinSegs_cons_cons]
      have hc : c ≠ '/' := fun e => h.2.2.2 (by simp [e])
      simp [hc]

lemma joinSegs_take2_ne_dotSlash (L : List (List Char)) (hne : L ≠ [])
    (hOK : ∀ s ∈ L, SegOK s) : (joinSegs L).take 2 ≠ ['.', '/'] := by
  cases L with
  | nil => exact absurd rfl hne
  | cons s r =>
    have h := hOK s (by simp)
    cases s with
    | nil => exact absurd rfl h.1
    | cons c t =>
      rw [joinSegs_cons_cons]
      cases t with
      | nil =>
        have hc : c ≠ '.' := by
          intro e
          exact h.2.1 (by rw [e])
        cases r with
        | nil =>
          simp [joinSegs]
        | cons a rs =>
          intro he
          simp only [List.take] at he
          rw [List.cons.injEq] at he
          exact hc he.1
      | cons c2 t2 =>
        rw [joinSegs_cons_cons]
        have hc2 : c2 ≠ '/' := fun e => h.2.2.2 (by simp [e])
        intro he
        simp only [List.take] at he
        rw [List.cons.injEq, List.cons.injEq] at he
        exact hc2 he.2.1

lemma joinSegs_dd_escape (r : List (List Char)) :
    joinSegs (ddSeg :: r) = ddSeg
      ∨ (joinSegs (ddSeg :: r)).take 3 = ['.', '.', '/'] := by
  cases r with
  | nil => exact Or.inl rfl
  | cons a rs =>
    right
    show (ddSeg ++ '/' :: joinSegs (a :: rs)).take 3 = _
    rfl

lemma joinSegs_dd_ne_nil (r : List (List Char)) :
    joinSegs (ddSeg :: r) ≠ [] :=
  joinSegs_ne_nil ddSeg r (by decide)

/-- path.Clean of a join of normal segments is a fixed point. -/
lemma clean_fix (L : List (List Char)) (hne : L ≠ [])
    (hOK : ∀ s ∈ L, SegOK s) : cleanChars (joinSegs L) = joinSegs L := by
  cases L with
  | nil => exact absurd rfl hne
  | cons s r =>
    have h := hOK s (by simp)
    cases s with
    | nil => exact absurd rfl h.1
    | cons c t =>
      have hc : c ≠ '/' := fun e => h.2.2.2 (by simp [e])
      have hsplit : splitSegs (joinSegs ((c :: t) :: r)) = (c :: t) :: r :=
        splitSegs_join _ (by simp) (fun x hx => (hOK x hx).2.2.2)
      have hfold : List.foldl (cleanStep false) [] ((c :: t) :: r)
          = ((c :: t) :: r).reverse ++ [] := fold_push _ [] hOK
      have hj : joinSegs ((c :: t) :: r) = c :: joinSegs (t :: r) :=
        joinSegs_cons_cons c t r
      rw [hj, cleanChars_cons_notslash c _ hc, ← hj, hsplit, hfold]
      rw [if_neg (by
        simp only [List.append_nil, List.reverse_reverse]
        rw [hj]
        simp)]
      simp only [List.append_nil, List.reverse_reverse]

lemma take3_shape (cc : List Char) (h : cc.take 3 = ['.', '.', '/']) :
    ∃ r, cc = '.' :: '.' :: '/' :: r := by
  cases cc with
  | nil => simp at h
  | cons a t =>
    cases t with
    | nil => simp at h
    | cons b t2 =>
      cases t2 with
      | nil => simp at h
      | cons c r =>
        simp only [List.take, List.cons.injEq, and_true] at h
        exact ⟨r, by rw [h.1, h.2.1, h.2.2]⟩

/-- Resolution of any path whose cleaned form is ".." or begins with
"../" fails with fs.ErrNotExist, whatever the mount table holds. -/
lemma resolve_escape (m : MultiFS) (cs : List Char)
    (h : cleanChars cs = ddSeg ∨ (cleanChars cs).take 3 = ['.', '.', '/']) :
    resolveChars m cs = .error .notExist := by
  unfold resolveChars
  rcases h with h | h
  · rw [h]
    rfl
  · obtain ⟨r, hr⟩ := take3_shape _ h
    rw [hr]
    rw [show trimLeadSlash ('.' :: '.' :: '/' :: r) = '.' :: '.' :: '/' :: r by
      unfold trimLeadSlash
      rw [if_neg (show ¬List.take 1 ('.' :: '.' :: '/' :: r) = ['/'] by
        rw [show List.take 1 ('.' :: '.' :: '/' :: r) = ['.'] from rfl]
        decide)]]
    rw [show trimDotSlash ('.' :: '.' :: '/' :: r) = '.' :: '.' :: '/' :: r by
      unfold trimDotSlash
      rw [if_neg (show ¬List.take 2 ('.' :: '.' :: '/' :: r) = ['.', '/'] by
        rw [show List.take 2 ('.' :: '.' :: '/' :: r) = ['.', '.'] from rfl]
        decide)]]
    unfold splitCore
    rw [if_neg (by simp),
      if_pos (Or.inr (show List.take 3 ('.' :: '.' :: '/' :: r)
        = ['.', '.', '/'] from rfl))]

/-- The cleaned form of a relative path never starts with a
separator. -/
lemma cleanChars_unrooted_take1 (c : Char) (cs2 : List Char) (hc : c ≠ '/') :
    (cleanChars (c :: cs2)).take 1 ≠ ['/'] := by
  obtain ⟨N, k, hN, -, hrel⟩ := cleanChars_shape c cs2
  rw [hrel hc]
  by_cases hb : joinSegs (List.replicate k ddSeg ++ N.reverse) = []
  · rw [if_pos hb]
    decide
  · rw [if_neg hb]
    cases k with
    | zero =>
      simp only [List.replicate_zero, List.nil_append] at hb ⊢
      apply joinSegs_take1_ne_slash _ _ (fun x hx => hN x (List.mem_reverse.mp hx))
      intro e
      exact hb (by rw [e]; rfl)
    | succ k2 =>
      rw [List.replicate_succ, List.cons_append]
      show (joinSegs (('.' :: ['.']) :: (List.replicate k2 ddSeg ++ N.reverse))).take 1
          ≠ ['/']
      rw [joinSegs_cons_cons]
      simp

/-- The cleaned form of a path never starts with the two characters
"./". -/
lemma cleanChars_take2 (cs : List Char) :
    (cleanChars cs).take 2 ≠ ['.', '/'] := by
  cases cs with
  | nil => decide
  | cons c cs2 =>
    obtain ⟨N, k, hN, hroot, hrel⟩ := cleanChars_shape c cs2
    by_cases hc : c = '/'
    · rw [hroot hc]
      intro he
      cases hN2 : joinSegs N.reverse with
      | nil =>
        rw [hN2] at he
        simp at he
      | cons a t =>
        rw [hN2] at he
        simp only [List.take, List.cons.injEq] at he
        exact absurd he.1 (by decide)
    · rw [hrel hc]
      by_cases hb : joinSegs (List.replicate k ddSeg ++ N.reverse) = []
      · rw [if_pos hb]
        decide
      · rw [if_neg hb]
        cases k with
        | zero =>
          simp only [List.replicate_zero, List.nil_append] at hb ⊢
          apply joinSegs_take2_ne_dotSlash _ _ (fun x hx => hN x (List.mem_reverse.mp hx))
          intro e
          exact hb (by rw [e]; rfl)
        | succ k2 =>
          rw [List.replicate_succ, List.cons_append]
          rcases joinSegs_dd_escape (List.replicate k2 ddSeg ++ N.reverse) with he | he
          · rw [he]
            decide
          · obtain ⟨r, hr⟩ := take3_shape _ he
            rw [hr]
            intro he2
            simp only [List.take, List.cons.injEq] at he2
            exact absurd he2.2.1 (by decide)

/-- A leading separator is stripped before classification: prefixing a
separator to a relative path that does not escape the root resolves
identically. -/
lemma resolve_slash (m : MultiFS) (cs : List Char) (h1 : cs.take 1 ≠ ['/'])
    (h2 : cleanChars cs ≠ ddSeg) (h3 : (cleanChars cs).take 3 ≠ ['.', '.', '/']) :
    resolveChars m ('/' :: cs) = resolveChars m cs := by
  cases cs with
  | nil => rfl
  | cons c cs2 =>
    have hc : c ≠ '/' := by
      intro e
      exact h1 (by rw [e]; rfl)
    obtain ⟨N, k, hN, hfalse, htrue⟩ :=
      fold_pair (splitSegs (c :: cs2)) [] 0 (by simp) (splitSegs_slashFree _)
    simp only [List.append_nil, List.replicate_zero] at hfalse
    have hsegL : splitSegs ('/' :: c :: cs2) = [] :: splitSegs (c :: cs2) := by
      simp [splitSegs]
    have hfoldL : List.foldl (cleanStep true) [] (splitSegs ('/' :: c :: cs2))
        = N := by
      rw [hsegL, List.foldl_cons, cleanStep_skip true [] [] (Or.inl rfl)]
      exact htrue
    have hL : cleanChars ('/' :: c :: cs2) = '/' :: joinSegs N.reverse := by
      rw [cleanChars_cons_slash, hfoldL]
    have hR : cleanChars (c :: cs2)
        = (if joinSegs (List.replicate k ddSeg ++ N.reverse) = [] then ['.']
           else joinSegs (List.replicate k ddSeg ++ N.reverse)) := by
      rw [cleanChars_cons_notslash c cs2 hc, hfalse, List.reverse_append,
        List.reverse_replicate]
    have hk : k = 0 := by
      by_contra hk0
      obtain ⟨k2, rfl⟩ : ∃ k2, k = k2 + 1 := ⟨k - 1, by omega⟩
      rw [List.replicate_succ, List.cons_append] at hR
      have hnn : joinSegs (ddSeg :: (List.replicate k2 ddSeg ++ N.reverse)) ≠ [] :=
        joinSegs_dd_ne_nil _
      rw [if_neg hnn] at hR
      rcases joinSegs_dd_escape (List.replicate k2 ddSeg ++ N.reverse) with he | he
      · exact h2 (by rw [hR]; exact he)
      · exact h3 (by rw [hR]; exact he)
    subst hk
    simp only [List.replicate_zero, List.nil_append] at hR
    unfold resolveChars
    rw [hL, hR]
    rw [show trimLeadSlash ('/' :: joinSegs N.reverse) = joinSegs N.reverse by
      unfold trimLeadSlash
      rw [if_pos (show List.take 1 ('/' :: joinSegs N.reverse) = ['/'] from rfl)]
      rfl]
    by_cases hrev : N.reverse = []
    · rw [hrev]
      rfl
    · have hOKrev : ∀ x ∈ N.reverse, SegOK x :=
        fun x hx => hN x (List.mem_reverse.mp hx)
      obtain ⟨s, r, hsr⟩ := List.exists_cons_of_ne_nil hrev
      have hnn : joinSegs N.reverse ≠ [] := by
        rw [hsr]
        exact joinSegs_ne_nil s r (hOKrev s (by rw [hsr]; simp)).1
      rw [if_neg hnn]
      rw [show trimLeadSlash (joinSegs N.reverse) = joinSegs N.reverse by
        unfold trimLeadSlash
        rw [if_neg (joinSegs_take1_ne_slash _ hrev hOKrev)]]

/-- A path whose cleaned form is absolute resolves exactly as the
cleaned form with its leading separator stripped. -/
lemma resolve_abs (m : MultiFS) (cs : List Char)
    (h : (cleanChars cs).take 1 = ['/']) :
    resolveChars m cs = resolveChars m ((cleanChars cs).drop 1) := by
  cases cs with
  | nil => exact absurd h (by decide)
  | cons c cs2 =>
    by_cases hc : c = '/'
    case neg => exact absurd h (cleanChars_unrooted_take1 c cs2 hc)
    subst hc
    obtain ⟨N, k, hN, hroot, -⟩ := cleanChars_shape '/' cs2
    have hL := hroot rfl
    have hdrop : (cleanChars ('/' :: cs2)).drop 1 = joinSegs N.reverse := by
      rw [hL]
      rfl
    rw [hdrop]
    unfold resolveChars
    rw [hL]
    rw [show trimLeadSlash ('/' :: joinSegs N.reverse) = joinSegs N.reverse by
      unfold trimLeadSlash
      rw [if_pos (show List.take 1 ('/' :: joinSegs N.reverse) = ['/'] from rfl)]
      rfl]
    by_cases hrev : N.reverse = []
    · rw [hrev]
      rfl
    · have hOKrev : ∀ x ∈ N.reverse, SegOK x :=
        fun x hx => hN x (List.mem_reverse.mp hx)
      have hfix : cleanChars (joinSegs N.reverse) = joinSegs N.reverse :=
        clean_fix N.reverse hrev hOKrev
      rw [hfix]
      rw [show trimLeadSlash (joinSegs N.reverse) = joinSegs N.reverse by
        unfold trimLeadSlash
        rw [if_neg (joinSegs_take1_ne_slash _ hrev hOKrev)]]

/-! ## Path-resolution claims -/

/-- Counterexample to claim C1 as stated: "/one/file" cleans to an
absolute path (retaining its leading separator) and its first segment
names the mounted identifier "one", yet resolution succeeds instead of
failing with NotFound. -/
theorem C1_counterexample :
    absolute (pathClean "/one/file") ∧
    mOne.split "/one/file" = .ok ("one", "file") := by
  exact ⟨by decide, by decide⟩

/-- Claim C1 (corrected): for every mount table state, a path whose
cleaned form is exactly ".." or begins with "../" fails with NotFound;
but a path whose cleaned form is absolute does not thereby fail — its
leading separator is stripped and it resolves exactly as the stripped
remainder does (succeeding, in particular, when the first segment after
the separator names a mounted identifier). -/
theorem C1_amended_resolution (m : MultiFS) (name : String) :
    ((pathClean name = ".." ∨ beginsDotDot (pathClean name)) →
      m.split name = .error .notExist) ∧
    (absolute (pathClean name) →
      m.split name = m.split (strDropOne (pathClean name))) := by
  constructor
  · intro h
    apply resolve_escape
    rcases h with h | h
    · exact Or.inl (congrArg String.data h)
    · exact Or.inr h
  · intro h
    exact resolve_abs m name.data h

/-- Witness for C1 at concrete inputs exercising both conjuncts. -/
theorem C1_witness :
    mOne.split "/one/file" = mOne.split (strDropOne (pathClean "/one/file")) ∧
    mOne.split "../z" = .error .notExist :=
  ⟨(C1_amended_resolution mOne "/one/file").2 (by decide),
   (C1_amended_resolution mOne "../z").1 (Or.inr (by decide))⟩

/-- Claim C4 (confirmed): for every mount table state, Open of a path
whose cleaned form is exactly ".." or begins with "../" fails with
NotFound.  Open consumes the table read-only in the source and in this
embedding, so the failing call leaves the mount table unchanged. -/
theorem C4_escape_notfound (m : MultiFS) (name : String)
    (h : pathClean name = ".." ∨ beginsDotDot (pathClean name)) :
    m.Open name = .error .notExist := by
  have hsplit : m.split name = .error .notExist := by
    apply resolve_escape
    rcases h with h | h
    · exact Or.inl (congrArg String.data h)
    · exact Or.inr h
  unfold MultiFS.Open
  rw [hsplit]

/-- Witness for C4 at the claim's concrete escape attempts, with "one"
mounted. -/
theorem C4_witness :
    mOne.Open "one/../../escape" = .error .notExist ∧
    mOne.Open "../outside" = .error .notExist :=
  ⟨C4_escape_notfound mOne "one/../../escape" (Or.inr (by decide)),
   C4_escape_notfound mOne "../outside" (Or.inr (by decide))⟩

/-- Counterexample to claim C9 as stated: for p = ".." (which does not
begin with a separator), "/.." resolves to the global root while ".."
fails with NotFound, so prefixing a separator is not always the
identity. -/
theorem C9_counterexample :
    ¬ absolute ".." ∧
    mEmpty.split ("/" ++ "..") = .ok ("", ".") ∧
    mEmpty.split ".." = .error .notExist := by
  exact ⟨by decide, by decide, by decide⟩

/-- Claim C9 (corrected): for every path p not beginning with a
separator and whose cleaned form is not ".." and does not begin with
"../", resolution and Open of "/" ++ p coincide with those of p.  (For
escaping p the two differ: cleaning resolves the ".." against the added
root.) -/
theorem C9_leading_slash (m : MultiFS) (p : String)
    (h0 : ¬ absolute p) (h1 : pathClean p ≠ "..")
    (h2 : ¬ beginsDotDot (pathClean p)) :
    m.split ("/" ++ p) = m.split p ∧ m.Open ("/" ++ p) = m.Open p := by
  have hdata : ("/" ++ p).data = '/' :: p.data := by
    obtain ⟨d⟩ := p
    rfl
  have h1c : cleanChars p.data ≠ ddSeg := by
    intro e
    apply h1
    show pathClean p = ".."
    unfold pathClean
    rw [e]
    rfl
  have hsplit : m.split ("/" ++ p) = m.split p := by
    show resolveChars m (("/" ++ p).data) = resolveChars m p.data
    rw [hdata]
    exact resolve_slash m p.data (fun e => h0 e) h1c h2
  refine ⟨hsplit, ?_⟩
  unfold MultiFS.Open
  rw [hsplit]

/-- Witness for C9 at a concrete mounted path. -/
theorem C9_witness :
    mOne.split "/one/file" = mOne.split "one/file" ∧
    mOne.Open "/one/file" = mOne.Open "one/file" := by
  have h := C9_leading_slash mOne "one/file" (by decide) (by decide) (by decide)
  exact h

lemma splitN2_append (a r : List Char) (h : '/' ∉ a) :
    splitN2 (a ++ '/' :: r) = (a, some r) := by
  induction a with
  | nil => simp [splitN2]
  | cons c t ih =>
    have hc : c ≠ '/' := fun e => h (by simp [e])
    simp only [List.cons_append, splitN2, List.append_eq]
    rw [if_neg hc, ih (fun hm => h (by simp [hm]))]

lemma mid_data (a b : String) : (a ++ "/" ++ b).data = a.data ++ '/' :: b.data := by
  obtain ⟨da⟩ := a
  obtain ⟨db⟩ := b
  show (da ++ ['/']) ++ db = da ++ '/' :: db
  simp

/-- Counterexample to claim C6 as stated: the identifier ".." is
mountable (trimming leaves it non-empty and separator-free), the
subpath "x" satisfies the claim's cleanliness condition (the cleaned
form of "../x" is "../x" itself), yet Open("../x") is rejected by the
escape check instead of delegating to the backend's Open("x"). -/
theorem C6_counterexample :
    (mEmpty.Mount ".." (some b7)).1 = none ∧
    mDots.getRoot ".." = some b7 ∧
    pathClean (".." ++ "/" ++ "x") = ".." ++ "/" ++ "x" ∧
    mDots.Open (".." ++ "/" ++ "x") = .error .notExist ∧
    b7.openf "x" = .ok (.backendFile 7 none) ∧
    mDots.Open (".." ++ "/" ++ "x") ≠ b7.openf "x" := by
  refine ⟨rfl, rfl, by decide, rfl, rfl, by decide⟩

/-- Claim C6 (corrected): for every mounted identifier other than ".."
(mounted identifiers are non-empty and separator-free) and every
subpath s with pathClean (id ++ "/" ++ s) = id ++ "/" ++ s, Open of
id ++ "/" ++ s returns exactly the mounted backend's own Open(s) —
the same value, success or error, unwrapped and untranslated. -/
theorem C6_delegation (m : MultiFS) (id s : String) (b : Backend)
    (hroot : m.getRoot id = some b) (hne : id ≠ "") (hsf : '/' ∉ id.data)
    (hdd : id ≠ "..")
    (hclean : pathClean (id ++ "/" ++ s) = id ++ "/" ++ s) :
    m.Open (id ++ "/" ++ s) = b.openf s := by
  obtain ⟨d⟩ := id
  have hmid : ((⟨d⟩ : String) ++ "/" ++ s).data = d ++ '/' :: s.data :=
    mid_data ⟨d⟩ s
  have hcleanc : cleanChars (d ++ '/' :: s.data) = d ++ '/' :: s.data := by
    have h2 := congrArg String.data hclean
    rw [show (pathClean ((⟨d⟩ : String) ++ "/" ++ s)).data
        = cleanChars (((⟨d⟩ : String) ++ "/" ++ s).data) from rfl, hmid] at h2
    exact h2
  have hdne : d ≠ [] := by
    intro e
    exact hne (by rw [e])
  obtain ⟨c, t, hct⟩ := List.exists_cons_of_ne_nil hdne
  have hc : c ≠ '/' := by
    intro e
    exact hsf (by rw [hct, e]; simp)
  have hdot : d ≠ ['.'] := by
    intro e
    apply cleanChars_take2 (d ++ '/' :: s.data)
    rw [hcleanc, e]
    rfl
  have hdds : d ≠ ddSeg := by
    intro e
    exact hdd (by rw [e]; rfl)
  have hmem : '/' ∈ d ++ '/' :: s.data := by simp
  -- the split of id ++ "/" ++ s
  have hsplit : MultiFS.split m ((⟨d⟩ : String) ++ "/" ++ s) = .ok (⟨d⟩, s) := by
    show resolveChars m (((⟨d⟩ : String) ++ "/" ++ s).data) = _
    rw [hmid]
    unfold resolveChars
    rw [hcleanc]
    rw [show trimLeadSlash (d ++ '/' :: s.data) = d ++ '/' :: s.data by
      unfold trimLeadSlash
      rw [if_neg (by
        rw [hct, List.cons_append]
        intro he
        simp only [List.take, List.cons.injEq] at he
        exact hc he.1)]]
    rw [show trimDotSlash (d ++ '/' :: s.data) = d ++ '/' :: s.data by
      unfold trimDotSlash
      rw [if_neg (by
        rw [hct, List.cons_append]
        cases t with
        | nil =>
          intro he
          simp only [List.nil_append, List.take, List.cons.injEq] at he
          exact hdot (by rw [hct, he.1])
        | cons c2 t2 =>
          have hc2 : c2 ≠ '/' := by
            intro e
            exact hsf (by rw [hct, e]; simp)
          intro he
          simp only [List.cons_append, List.take, List.cons.injEq] at he
          exact hc2 he.2.1)]]
    unfold splitCore
    rw [if_neg (by
      push_neg
      constructor
      · intro e
        rw [e] at hmem
        simp at hmem
      · intro e
        rw [e, List.mem_singleton] at hmem
        exact absurd hmem (by decide))]
    rw [if_neg (by
      push_neg
      constructor
      · intro e
        rw [e] at hmem
        exact absurd hmem (by decide)
      · rw [hct, List.cons_append]
        cases t with
        | nil =>
          intro he
          simp only [List.nil_append, List.take, List.cons.injEq] at he
          exact absurd he.2.1 (by decide)
        | cons c2 t2 =>
          cases t2 with
          | nil =>
            intro he
            simp only [List.cons_append, List.take, List.cons.injEq] at he
            exact hdds (by rw [hct, he.1, he.2.1]; rfl)
          | cons c3 t3 =>
            have hc3 : c3 ≠ '/' := by
              intro e
              exact hsf (by rw [hct, e]; simp)
            intro he
            simp only [List.cons_append, List.take, List.cons.injEq] at he
            exact hc3 he.2.2.1)]
    rw [splitN2_append d s.data hsf]
    show (if (m.getRoot ⟨d⟩).isSome then _ else _) = _
    rw [hroot]
    rfl
  -- the subpath cannot be "."
  have hsdot : s ≠ "." := by
    intro e
    subst e
    have hOKd : SegOK d := ⟨hdne, hdot, hdds, hsf⟩
    have hsegs : splitSegs (d ++ '/' :: ['.']) = [d, ['.']] := by
      rw [splitSegs_append d _ hsf,
        show splitSegs ('/' :: ['.']) = [[], ['.']] from rfl]
      simp [prependSeg]
    have hfold : List.foldl (cleanStep false) [] [d, ['.']] = [d] := by
      simp only [List.foldl_cons, List.foldl_nil]
      rw [cleanStep_push false [] d hOKd.1 hOKd.2.1 hOKd.2.2.1,
        cleanStep_skip false [d] ['.'] (Or.inr rfl)]
    have hcompute : cleanChars (d ++ '/' :: ['.']) = d := by
      rw [hct, List.cons_append, cleanChars_cons_notslash c _ hc,
        ← List.cons_append, ← hct, hsegs, hfold]
      rw [show joinSegs ([d] : List (List Char)).reverse = d by simp [joinSegs]]
      rw [if_neg hdne]
    have hlen := congrArg List.length (hcompute.symm.trans hcleanc)
    simp at hlen
  -- conclude
  show MultiFS.Open m ((⟨d⟩ : String) ++ "/" ++ s) = b.openf s
  unfold MultiFS.Open
  rw [hsplit]
  show (if (⟨d⟩ : String) = "" then Except.ok (newRootDir m.idsSnapshot)
      else match m.getRoot ⟨d⟩ with
        | none => Except.error Err.notExist
        | some subfs =>
          if s = "." then Except.ok (newSnapshotRootDir subfs)
          else subfs.openf s) = b.openf s
  rw [if_neg hne, hroot]
  show (if s = "." then Except.ok (newSnapshotRootDir b) else b.openf s)
      = b.openf s
  rw [if_neg hsdot]

/-- Witness for C6 at a concrete mounted identifier and subpath. -/
theorem C6_witness : mOne.Open ("one" ++ "/" ++ "dir/f.txt")
    = b0.openf "dir/f.txt" :=
  C6_delegation mOne "one" "dir/f.txt" b0 rfl (by decide) (by decide)
    (by decide) (by decide)

/-! ## Cursor lemmas and claims -/

/-- Claim C2 (confirmed): for every directory cursor — the global-root
cursor and a mount-root cursor with a loaded buffer — whose read
position has reached or passed the end of its buffered entries, a read
request with n ≤ 0 returns an empty entry list with no error and leaves
the cursor where it is, while a read request with n > 0 returns io.EOF. -/
theorem C2_cursor_exhausted (names : List String) (pos : Nat) (n : Int)
    (listing : Except Err (List DirEntry)) (buf : List DirEntry)
    (pos2 : Nat) (n2 : Int)
    (hp : names.length ≤ pos) (hp2 : buf.length ≤ pos2) :
    (n ≤ 0 → rootDirReadDir names pos n = (.ok [], pos)) ∧
    (0 < n → rootDirReadDir names pos n = (.error .eof, pos)) ∧
    (n2 ≤ 0 → snapReadDir listing pos2 (some buf) n2
        = (.ok [], (pos2, some buf))) ∧
    (0 < n2 → snapReadDir listing pos2 (some buf) n2
        = (.error .eof, (pos2, some buf))) := by
  refine ⟨?_, ?_, ?_, ?_⟩
  · intro hn
    unfold rootDirReadDir
    rw [if_neg (by omega), if_pos (Or.inl hn)]
    have hk : min ((names.length : Int) - (pos : Int)).toNat
        (names.length - pos) = 0 := by omega
    simp [hk]
    omega
  · intro hn
    unfold rootDirReadDir
    rw [if_pos ⟨hp, hn⟩]
  · intro hn
    show snapCore buf pos2 n2 = _
    unfold snapCore
    rw [if_neg (by omega), if_pos (Or.inl hn)]
    have hk : min ((buf.length : Int) - (pos2 : Int)).toNat
        (buf.length - pos2) = 0 := by omega
    simp [hk]
    omega
  · intro hn
    show snapCore buf pos2 n2 = _
    unfold snapCore
    rw [if_pos ⟨hp2, hn⟩]

/-- Witness for C2 at concrete cursors. -/
theorem C2_witness :
    rootDirReadDir ["a"] 1 0 = (.ok [], 1) ∧
    rootDirReadDir ["a"] 1 1 = (.error .eof, 1) ∧
    snapReadDir (.ok []) 1 (some [⟨"e", false⟩]) 0
      = (.ok [], (1, some [⟨"e", false⟩])) ∧
    snapReadDir (.ok []) 1 (some [⟨"e", false⟩]) 1
      = (.error .eof, (1, some [⟨"e", false⟩])) := by
  obtain ⟨h1, -, h3, -⟩ :=
    C2_cursor_exhausted ["a"] 1 0 (.ok []) [⟨"e", false⟩] 1 0
      (by decide) (by decide)
  obtain ⟨-, h2, -, h4⟩ :=
    C2_cursor_exhausted ["a"] 1 1 (.ok []) [⟨"e", false⟩] 1 1
      (by decide) (by decide)
  exact ⟨h1 (by decide), h2 (by decide), h3 (by decide), h4 (by decide)⟩

/-- Claim C7 (confirmed): for every directory cursor with buffered
entries remaining at position p, a read with n ≤ 0 returns every
remaining entry in buffered order and advances the position to the end,
and a read with n > 0 returns exactly min(n, remaining) entries from
position p in buffered order and advances the position by the count
returned. -/
theorem C7_cursor_read (names : List String) (buf : List DirEntry)
    (listing : Except Err (List DirEntry)) (pos pos2 : Nat) (n n2 : Int) :
    (n ≤ 0 → pos ≤ names.length →
      rootDirReadDir names pos n
        = (.ok ((names.drop pos).map (fun s => ⟨s, true⟩)), names.length)) ∧
    (0 < n → pos < names.length →
      rootDirReadDir names pos n
        = (.ok (((names.drop pos).take (min n.toNat (names.length - pos))).map
            (fun s => ⟨s, true⟩)),
           pos + min n.toNat (names.length - pos))) ∧
    (n2 ≤ 0 → pos2 ≤ buf.length →
      snapReadDir listing pos2 (some buf) n2
        = (.ok (buf.drop pos2), (buf.length, some buf))) ∧
    (0 < n2 → pos2 < buf.length →
      snapReadDir listing pos2 (some buf) n2
        = (.ok ((buf.drop pos2).take (min n2.toNat (buf.length - pos2))),
           (pos2 + min n2.toNat (buf.length - pos2), some buf))) := by
  refine ⟨?_, ?_, ?_, ?_⟩
  · intro hn hpos
    unfold rootDirReadDir
    rw [if_neg (by omega), if_pos (Or.inl hn)]
    have hk : min ((names.length : Int) - (pos : Int)).toNat
        (names.length - pos) = names.length - pos := by omega
    simp only [hk]
    rw [List.take_of_length_le (by simp)]
    have : pos + (names.length - pos) = names.length := by omega
    rw [this]
  · intro hn hpos
    unfold rootDirReadDir
    rw [if_neg (by omega)]
    rcases le_or_lt n ((names.length : Int) - (pos : Int)) with h | h
    · rw [if_neg (by omega)]
    · rw [if_pos (Or.inr h)]
      have hk : min ((names.length : Int) - (pos : Int)).toNat
          (names.length - pos) = min n.toNat (names.length - pos) := by omega
      simp only [hk]
  · intro hn hpos
    show snapCore buf pos2 n2 = _
    unfold snapCore
    rw [if_neg (by omega), if_pos (Or.inl hn)]
    have hk : min ((buf.length : Int) - (pos2 : Int)).toNat
        (buf.length - pos2) = buf.length - pos2 := by omega
    simp only [hk]
    rw [List.take_of_length_le (by simp)]
    have : pos2 + (buf.length - pos2) = buf.length := by omega
    rw [this]
  · intro hn hpos
    show snapCore buf pos2 n2 = _
    unfold snapCore
    rw [if_neg (by omega)]
    rcases le_or_lt n2 ((buf.length : Int) - (pos2 : Int)) with h | h
    · rw [if_neg (by omega)]
    · rw [if_pos (Or.inr h)]
      have hk : min ((buf.length : Int) - (pos2 : Int)).toNat
          (buf.length - pos2) = min n2.toNat (buf.length - pos2) := by omega
      simp only [hk]

/-- Witness for C7 at concrete cursors. -/
theorem C7_witness :
    rootDirReadDir ["a", "b", "c"] 1 (-1)
      = (.ok [⟨"b", true⟩, ⟨"c", true⟩], 3) ∧
    rootDirReadDir ["a", "b", "c"] 0 2
      = (.ok [⟨"a", true⟩, ⟨"b", true⟩], 2) ∧
    snapReadDir (.ok []) 0 (some [⟨"e", false⟩, ⟨"g", true⟩]) (-1)
      = (.ok [⟨"e", false⟩, ⟨"g", true⟩], (2, some [⟨"e", false⟩, ⟨"g", true⟩])) ∧
    snapReadDir (.ok []) 1 (some [⟨"e", false⟩, ⟨"g", true⟩]) 5
      = (.ok [⟨"g", true⟩], (2, some [⟨"e", false⟩, ⟨"g", true⟩])) := by
  obtain ⟨h1, -, h3, -⟩ :=
    C7_cursor_read ["a", "b", "c"] [⟨"e", false⟩, ⟨"g", true⟩] (.ok [])
      1 0 (-1) (-1)
  obtain ⟨-, h2, -, h4⟩ :=
    C7_cursor_read ["a", "b", "c"] [⟨"e", false⟩, ⟨"g", true⟩] (.ok [])
      0 1 2 5
  refine ⟨?_, ?_, ?_, ?_⟩
  · have := h1 (by decide) (by decide)
    simpa using this
  · have := h2 (by decide) (by decide)
    simpa using this
  · have := h3 (by decide) (by decide)
    simpa using this
  · have := h4 (by decide) (by decide)
    simpa using this

/-! ## Mount-table claims -/

/-- Claim C3 (confirmed): for every non-empty, separator-free
identifier and non-nil backend, Mount succeeds and a subsequent Lookup
(getRoot) returns the backend; Mount followed immediately by Unmount
succeeds and leaves Lookup returning absent. -/
theorem C3_mount_lookup_unmount (m : MultiFS) (x : String) (b : Backend)
    (hne : x ≠ "") (hsf : '/' ∉ x.data) :
    (m.Mount x (some b)).1 = none ∧
    (m.Mount x (some b)).2.getRoot x = some b ∧
    ((m.Mount x (some b)).2.Unmount x).1 = none ∧
    ((m.Mount x (some b)).2.Unmount x).2.getRoot x = none := by
  have ht : trimSlashes x = x := trimSlashes_slashFree x hsf
  have hm : m.Mount x (some b)
      = (none, ⟨(x, b) :: m.roots.filter (fun p => p.1 != x)⟩) := by
    simp only [MultiFS.Mount, ht]
    rw [if_neg (by push_neg; exact ⟨hne, hsf⟩)]
  have hlook : ((x, b) :: m.roots.filter (fun p => p.1 != x)).lookup x
      = some b := by
    rw [List.lookup, beq_self_eq_true]
  have hun : (MultiFS.mk ((x, b) :: m.roots.filter (fun p => p.1 != x))).Unmount x
      = (none, ⟨((x, b) :: m.roots.filter (fun p => p.1 != x)).filter
          (fun p => p.1 != x)⟩) := by
    simp only [MultiFS.Unmount]
    rw [hlook]
  refine ⟨by rw [hm], by rw [hm]; exact hlook, ?_, ?_⟩
  · rw [hm, hun]
  · rw [hm, hun]
    exact lookup_filter_ne x _

/-- Witness for C3 at a concrete identifier and backend. -/
theorem C3_witness :
    (mEmpty.Mount "one" (some b0)).1 = none ∧
    (mEmpty.Mount "one" (some b0)).2.getRoot "one" = some b0 ∧
    ((mEmpty.Mount "one" (some b0)).2.Unmount "one").1 = none ∧
    ((mEmpty.Mount "one" (some b0)).2.Unmount "one").2.getRoot "one" = none :=
  C3_mount_lookup_unmount mEmpty "one" b0 (by decide) (by decide)

/-- Claim C5 (confirmed): Mount with an identifier that is empty after
trimming separators, or that still contains a separator after trimming,
fails with the invalid-identifier error; Mount of a well-formed
identifier with a nil backend fails with the nil-backend error; each
failed call returns the mount table unchanged. -/
theorem C5_mount_invalid (m : MultiFS) (id : String) (f : Option Backend) :
    ((trimSlashes id = "" ∨ '/' ∈ (trimSlashes id).data) →
      m.Mount id f = (some .invalidId, m)) ∧
    ((trimSlashes id ≠ "" ∧ '/' ∉ (trimSlashes id).data) →
      m.Mount id none = (some .nilFS, m)) := by
  constructor
  · intro h
    simp only [MultiFS.Mount]
    rw [if_pos h]
  · intro h
    simp only [MultiFS.Mount]
    rw [if_neg (by push_neg; exact h)]

/-- Witness for C5 at the three concrete failing calls of the claim. -/
theorem C5_witness :
    mEmpty.Mount "" (some b0) = (some .invalidId, mEmpty) ∧
    mEmpty.Mount "a/b" (some b0) = (some .invalidId, mEmpty) ∧
    mEmpty.Mount "id" none = (some .nilFS, mEmpty) :=
  ⟨(C5_mount_invalid mEmpty "" (some b0)).1 (by left; rfl),
   (C5_mount_invalid mEmpty "a/b" (some b0)).1 (by right; decide),
   (C5_mount_invalid mEmpty "id" none).2 (by refine ⟨by decide, by decide⟩)⟩

/-- Claim C10 (confirmed): Mount trims leading and trailing separators
off the identifier before validating and storing it, while Unmount does
no trimming: Mount("/x/") succeeds and mounts under key x, after which
Unmount("/x/") fails with NotFound (leaving the table unchanged) while
Unmount(x) succeeds and removes the entry.  The hypothesis on m states
the reachable-state invariant that stored keys are separator-free. -/
theorem C10_trim_asymmetry (m : MultiFS) (x : String) (b : Backend)
    (hne : x ≠ "") (hsf : '/' ∉ x.data)
    (hkeys : ∀ k ∈ m.roots.map Prod.fst, '/' ∉ k.data) :
    (m.Mount ("/" ++ x ++ "/") (some b)).1 = none ∧
    (m.Mount ("/" ++ x ++ "/") (some b)).2.getRoot x = some b ∧
    (m.Mount ("/" ++ x ++ "/") (some b)).2.Unmount ("/" ++ x ++ "/")
      = (some .notExist, (m.Mount ("/" ++ x ++ "/") (some b)).2) ∧
    ((m.Mount ("/" ++ x ++ "/") (some b)).2.Unmount x).1 = none ∧
    ((m.Mount ("/" ++ x ++ "/") (some b)).2.Unmount x).2.getRoot x = none := by
  have ht : trimSlashes ("/" ++ x ++ "/") = x := trimSlashes_wrap x hne hsf
  have hm : m.Mount ("/" ++ x ++ "/") (some b)
      = (none, ⟨(x, b) :: m.roots.filter (fun p => p.1 != x)⟩) := by
    simp only [MultiFS.Mount, ht]
    rw [if_neg (by push_neg; exact ⟨hne, hsf⟩)]
  have hwrap : '/' ∈ ("/" ++ x ++ "/").data := by
    rw [wrap_data]
    simp
  have hlookwrap : ((x, b) :: m.roots.filter (fun p => p.1 != x)).lookup
      ("/" ++ x ++ "/") = none := by
    apply lookup_eq_none_of_forall_ne
    intro p hp
    rcases List.mem_cons.mp hp with h | h
    · rw [h]
      intro he
      have hx : x = "/" ++ x ++ "/" := he
      exact hsf (by rw [hx]; exact hwrap)
    · intro he
      have hpm : p.1 ∈ m.roots.map Prod.fst :=
        List.mem_map.mpr ⟨p, List.mem_of_mem_filter h, rfl⟩
      exact (hkeys p.1 hpm) (he ▸ hwrap)
  have hlook : ((x, b) :: m.roots.filter (fun p => p.1 != x)).lookup x
      = some b := by
    rw [List.lookup, beq_self_eq_true]
  refine ⟨by rw [hm], by rw [hm]; exact hlook, ?_, ?_, ?_⟩
  · rw [hm]
    simp only [MultiFS.Unmount]
    rw [hlookwrap]
  · rw [hm]
    simp only [MultiFS.Unmount]
    rw [hlook]
  · rw [hm]
    simp only [MultiFS.Unmount]
    rw [hlook]
    exact lookup_filter_ne x _

/-- Witness for C10 at a concrete identifier. -/
theorem C10_witness :
    (mEmpty.Mount "/one/" (some b0)).1 = none ∧
    (mEmpty.Mount "/one/" (some b0)).2.getRoot "one" = some b0 ∧
    (mEmpty.Mount "/one/" (some b0)).2.Unmount "/one/"
      = (some .notExist, (mEmpty.Mount "/one/" (some b0)).2) ∧
    ((mEmpty.Mount "/one/" (some b0)).2.Unmount "one").1 = none ∧
    ((mEmpty.Mount "/one/" (some b0)).2.Unmount "one").2.getRoot "one" = none := by
  have h := C10_trim_asymmetry mEmpty "one" b0 (by decide) (by decide)
    (by intro k hk; simp [mEmpty] at hk)
  exact h

/-- Claim C8 (confirmed): for every mount table whose stored keys are
distinct (as in any Go map), ReadDir(".") succeeds, returns one entry
per currently mounted identifier (each reported as a directory), and
the set of returned names equals the set of mounted identifiers. -/
theorem C8_readdir_root (m : MultiFS) (hnd : (m.roots.map Prod.fst).Nodup) :
    m.ReadDir "." = .ok (m.idsSnapshot.map (fun s => ⟨s, true⟩)) ∧
    ((m.idsSnapshot.map (fun s => DirEntry.mk s true)).map DirEntry.name).Nodup ∧
    (∀ s, s ∈ (m.idsSnapshot.map (fun s => DirEntry.mk s true)).map DirEntry.name
        ↔ s ∈ m.idsSnapshot) ∧
    (∀ e ∈ m.idsSnapshot.map (fun s => DirEntry.mk s true), e.isDir = true) := by
  refine ⟨?_, ?_, ?_, ?_⟩
  · have hopen : m.Open "." = .ok (newRootDir m.idsSnapshot) := rfl
    show MultiFS.ReadDir m "." = _
    unfold MultiFS.ReadDir
    rw [hopen]
    show (rootDirReadDir m.idsSnapshot 0 (-1)).1 = _
    unfold rootDirReadDir
    rw [if_neg (by omega), if_pos (Or.inl (by omega))]
    have hk : min ((m.idsSnapshot.length : Int) - ((0 : Nat) : Int)).toNat
        (m.idsSnapshot.length - 0) = m.idsSnapshot.length := by omega
    simp only [hk, List.drop_zero, List.take_length]
  · simp only [List.map_map]
    have : (DirEntry.name ∘ fun s => DirEntry.mk s true) = id := rfl
    rw [this, List.map_id]
    exact hnd
  · intro s
    simp [List.map_map]
  · intro e he
    obtain ⟨s, -, rfl⟩ := List.mem_map.mp he
    rfl

/-- Witness for C8 with two mounted identifiers. -/
theorem C8_witness :
    mTwo.ReadDir "." = .ok [⟨"one", true⟩, ⟨"two", true⟩] ∧
    ("one" : String) ∈ mTwo.idsSnapshot ∧ ("two" : String) ∈ mTwo.idsSnapshot := by
  have h := C8_readdir_root mTwo (by decide)
  exact ⟨h.1, by decide, by decide⟩

end Multifs
